import Mathlib

/-!
# Verification of the Reevit Go SDK keying and signing subsystem

A shallow embedding of the SDK's core: the canonical key encoder and
idempotency-key generator (`idempotency.go`), and the HMAC signature
engine of the `webhooks` package (signing helpers in `webhooks`, and the
`VerifySignature` function shipped in the README's webhook-handler
example).

Modelling conventions:
* Go byte slices (`[]byte`) are `List Nat`, each element a byte value.
* Go strings are `List Char` (sequences of runes); conversion
  `[]byte(s)` is UTF-8 encoding, embedded as `utf8Encode`.
* Machine words are `Nat` with explicit reduction modulo `2^32` or
  `2^64` (via masking) wherever Go's fixed-width arithmetic wraps.
* `hmac.Equal` (a constant-time byte comparison that returns whether
  the two byte slices are equal) is embedded as decidable equality of
  byte lists; the timing property itself is outside a functional model.
-/

set_option maxRecDepth 100000

namespace Reevit

/-! ## Bytes, runes, whitespace, UTF-8, hex -/

/-- The rune class accepted by Go's `unicode.IsSpace` (the Unicode
`White_Space` property, which `strings.TrimSpace` trims). -/
def isGoSpace (c : Char) : Bool :=
  let n := c.toNat
  n == 9 || n == 10 || n == 11 || n == 12 || n == 13 || n == 32 ||
  n == 0x85 || n == 0xA0 || n == 0x1680 ||
  (0x2000 ≤ n && n ≤ 0x200A) ||
  n == 0x2028 || n == 0x2029 || n == 0x202F || n == 0x205F || n == 0x3000

/-- Go `strings.TrimSpace`: drop leading and trailing white space. -/
def trimSpace (s : List Char) : List Char :=
  ((s.dropWhile isGoSpace).reverse.dropWhile isGoSpace).reverse

/-- UTF-8 encoding of one rune (Go `utf8.EncodeRune`). -/
def utf8EncodeChar (c : Char) : List Nat :=
  let n := c.toNat
  if n < 0x80 then [n]
  else if n < 0x800 then
    [0xC0 ||| (n >>> 6), 0x80 ||| (n &&& 0x3F)]
  else if n < 0x10000 then
    [0xE0 ||| (n >>> 12), 0x80 ||| ((n >>> 6) &&& 0x3F), 0x80 ||| (n &&& 0x3F)]
  else
    [0xF0 ||| (n >>> 18), 0x80 ||| ((n >>> 12) &&& 0x3F),
     0x80 ||| ((n >>> 6) &&& 0x3F), 0x80 ||| (n &&& 0x3F)]

/-- Go's `[]byte(s)` conversion of a string: UTF-8 bytes. -/
def utf8Encode (s : List Char) : List Nat :=
  (s.map utf8EncodeChar).flatten

/-- Lowercase hexadecimal digit. -/
def hexDigitChar (n : Nat) : Char :=
  Char.ofNat (if n < 10 then 48 + n else 87 + n)

/-- Two lowercase hex digits of one byte (as in Go `encoding/hex` and
`fmt`'s `%x`). -/
def byteHex (b : Nat) : List Char :=
  [hexDigitChar (b / 16 % 16), hexDigitChar (b % 16)]

/-- Lowercase hex encoding of a byte string (`hex.EncodeToString`). -/
def hexEncode (bs : List Nat) : List Char :=
  (bs.map byteHex).flatten

/-! ## SHA-256 and SHA-512 (Go `crypto/sha256`, `crypto/sha512`)

Both hashes share the eight-word chaining-state shape. -/

structure Sha2State where
  h0 : Nat
  h1 : Nat
  h2 : Nat
  h3 : Nat
  h4 : Nat
  h5 : Nat
  h6 : Nat
  h7 : Nat

def mask32 : Nat := 0xFFFFFFFF

def mask64 : Nat := 0xFFFFFFFFFFFFFFFF

/-- Rotate a 32-bit word right by `n` bits, masked back to 32 bits. -/
def rotr32 (x n : Nat) : Nat :=
  ((x >>> n) ||| (x <<< (32 - n))) &&& mask32

/-- Rotate a 64-bit word right by `n` bits, masked back to 64 bits. -/
def rotr64 (x n : Nat) : Nat :=
  ((x >>> n) ||| (x <<< (64 - n))) &&& mask64

/-- Big-endian rendering of `n` into `count` bytes. -/
def beBytes (count n : Nat) : List Nat :=
  (List.range count).map (fun i => (n >>> (8 * (count - 1 - i))) &&& 0xFF)

/-- Big-endian 32-bit words from a byte stream. -/
def bytesToWords32 : List Nat → List Nat
  | b0 :: b1 :: b2 :: b3 :: rest =>
      ((b0 <<< 24) ||| (b1 <<< 16) ||| (b2 <<< 8) ||| b3) :: bytesToWords32 rest
  | _ => []

/-- Big-endian 64-bit words from a byte stream. -/
def bytesToWords64 : List Nat → List Nat
  | b0 :: b1 :: b2 :: b3 :: b4 :: b5 :: b6 :: b7 :: rest =>
      ((b0 <<< 56) ||| (b1 <<< 48) ||| (b2 <<< 40) ||| (b3 <<< 32) |||
       (b4 <<< 24) ||| (b5 <<< 16) ||| (b6 <<< 8) ||| b7) :: bytesToWords64 rest
  | _ => []

def sha256K : List Nat :=
  [1116352408, 1899447441, 3049323471, 3921009573, 961987163, 1508970993,
   2453635748, 2870763221, 3624381080, 310598401, 607225278, 1426881987,
   1925078388, 2162078206, 2614888103, 3248222580, 3835390401, 4022224774,
   264347078, 604807628, 770255983, 1249150122, 1555081692, 1996064986,
   2554220882, 2821834349, 2952996808, 3210313671, 3336571891, 3584528711,
   113926993, 338241895, 666307205, 773529912, 1294757372, 1396182291,
   1695183700, 1986661051, 2177026350, 2456956037, 2730485921, 2820302411,
   3259730800, 3345764771, 3516065817, 3600352804, 4094571909, 275423344,
   430227734, 506948616, 659060556, 883997877, 958139571, 1322822218,
   1537002063, 1747873779, 1955562222, 2024104815, 2227730452, 2361852424,
   2428436474, 2756734187, 3204031479, 3329325298]

def sha256Init : Sha2State :=
  ⟨1779033703, 3144134277, 1013904242, 2773480762,
   1359893119, 2600822924, 528734635, 1541459225⟩

/-- Extend the 16 schedule words to 64 (the fuel counts the 48 added
words; indices are absolute into the accumulated schedule). -/
def sha256Extend : Nat → List Nat → List Nat
  | 0, ws => ws
  | fuel + 1, ws =>
      let t := ws.length
      let w15 := ws.getD (t - 15) 0
      let w2 := ws.getD (t - 2) 0
      let s0 := rotr32 w15 7 ^^^ rotr32 w15 18 ^^^ (w15 >>> 3)
      let s1 := rotr32 w2 17 ^^^ rotr32 w2 19 ^^^ (w2 >>> 10)
      let w := (ws.getD (t - 16) 0 + s0 + ws.getD (t - 7) 0 + s1) &&& mask32
      sha256Extend fuel (ws ++ [w])

/-- One SHA-256 compression round. -/
def sha256Round (st : Sha2State) (k w : Nat) : Sha2State :=
  let s1 := rotr32 st.h4 6 ^^^ rotr32 st.h4 11 ^^^ rotr32 st.h4 25
  let ch := (st.h4 &&& st.h5) ^^^ ((mask32 ^^^ st.h4) &&& st.h6)
  let t1 := (st.h7 + s1 + ch + k + w) &&& mask32
  let s0 := rotr32 st.h0 2 ^^^ rotr32 st.h0 13 ^^^ rotr32 st.h0 22
  let maj := (st.h0 &&& st.h1) ^^^ (st.h0 &&& st.h2) ^^^ (st.h1 &&& st.h2)
  let t2 := (s0 + maj) &&& mask32
  ⟨(t1 + t2) &&& mask32, st.h0, st.h1, st.h2, (st.h3 + t1) &&& mask32,
   st.h4, st.h5, st.h6⟩

def sha2Rounds (round : Sha2State → Nat → Nat → Sha2State) :
    List Nat → List Nat → Sha2State → Sha2State
  | k :: ks, w :: ws, st => sha2Rounds round ks ws (round st k w)
  | _, _, st => st

/-- Compress one 64-byte block into the chaining state. -/
def sha256Compress (st : Sha2State) (block : List Nat) : Sha2State :=
  let ws := sha256Extend 48 (bytesToWords32 block)
  let r := sha2Rounds sha256Round sha256K ws st
  ⟨(st.h0 + r.h0) &&& mask32, (st.h1 + r.h1) &&& mask32,
   (st.h2 + r.h2) &&& mask32, (st.h3 + r.h3) &&& mask32,
   (st.h4 + r.h4) &&& mask32, (st.h5 + r.h5) &&& mask32,
   (st.h6 + r.h6) &&& mask32, (st.h7 + r.h7) &&& mask32⟩

/-- Merkle–Damgård padding: `0x80`, zeros, 8-byte big-endian bit length,
to a multiple of 64 bytes. -/
def sha256Pad (msg : List Nat) : List Nat :=
  msg ++ 0x80 :: (List.replicate ((64 - (msg.length + 9) % 64) % 64) 0 ++
    beBytes 8 (8 * msg.length))

/-- Fold the compression function over `n` consecutive 64-byte blocks. -/
def sha256Fold : Nat → Sha2State → List Nat → Sha2State
  | 0, st, _ => st
  | n + 1, st, bs => sha256Fold n (sha256Compress st (bs.take 64)) (bs.drop 64)

def word32Bytes (w : Nat) : List Nat :=
  [(w >>> 24) &&& 0xFF, (w >>> 16) &&& 0xFF, (w >>> 8) &&& 0xFF, w &&& 0xFF]

def sha2StateBytes32 (st : Sha2State) : List Nat :=
  word32Bytes st.h0 ++ word32Bytes st.h1 ++ word32Bytes st.h2 ++ word32Bytes st.h3 ++
  word32Bytes st.h4 ++ word32Bytes st.h5 ++ word32Bytes st.h6 ++ word32Bytes st.h7

/-- SHA-256 of a byte string (Go `sha256.Sum256`). -/
def sha256 (msg : List Nat) : List Nat :=
  let padded := sha256Pad msg
  sha2StateBytes32 (sha256Fold (padded.length / 64) sha256Init padded)

def sha512K : List Nat :=
  [4794697086780616226, 8158064640168781261, 13096744586834688815, 16840607885511220156,
   4131703408338449720, 6480981068601479193, 10538285296894168987, 12329834152419229976,
   15566598209576043074, 1334009975649890238, 2608012711638119052, 6128411473006802146,
   8268148722764581231, 9286055187155687089, 11230858885718282805, 13951009754708518548,
   16472876342353939154, 17275323862435702243, 1135362057144423861, 2597628984639134821,
   3308224258029322869, 5365058923640841347, 6679025012923562964, 8573033837759648693,
   10970295158949994411, 12119686244451234320, 12683024718118986047, 13788192230050041572,
   14330467153632333762, 15395433587784984357, 489312712824947311, 1452737877330783856,
   2861767655752347644, 3322285676063803686, 5560940570517711597, 5996557281743188959,
   7280758554555802590, 8532644243296465576, 9350256976987008742, 10552545826968843579,
   11727347734174303076, 12113106623233404929, 14000437183269869457, 14369950271660146224,
   15101387698204529176, 15463397548674623760, 17586052441742319658, 1182934255886127544,
   1847814050463011016, 2177327727835720531, 2830643537854262169, 3796741975233480872,
   4115178125766777443, 5681478168544905931, 6601373596472566643, 7507060721942968483,
   8399075790359081724, 8693463985226723168, 9568029438360202098, 10144078919501101548,
   10430055236837252648, 11840083180663258601, 13761210420658862357, 14299343276471374635,
   14566680578165727644, 15097957966210449927, 16922976911328602910, 17689382322260857208,
   500013540394364858, 748580250866718886, 1242879168328830382, 1977374033974150939,
   2944078676154940804, 3659926193048069267, 4368137639120453308, 4836135668995329356,
   5532061633213252278, 6448918945643986474, 6902733635092675308, 7801388544844847127]

def sha512Init : Sha2State :=
  ⟨7640891576956012808, 13503953896175478587, 4354685564936845355, 11912009170470909681,
   5840696475078001361, 11170449401992604703, 2270897969802886507, 6620516959819538809⟩

/-- Extend the 16 schedule words to 80. -/
def sha512Extend : Nat → List Nat → List Nat
  | 0, ws => ws
  | fuel + 1, ws =>
      let t := ws.length
      let w15 := ws.getD (t - 15) 0
      let w2 := ws.getD (t - 2) 0
      let s0 := rotr64 w15 1 ^^^ rotr64 w15 8 ^^^ (w15 >>> 7)
      let s1 := rotr64 w2 19 ^^^ rotr64 w2 61 ^^^ (w2 >>> 6)
      let w := (ws.getD (t - 16) 0 + s0 + ws.getD (t - 7) 0 + s1) &&& mask64
      sha512Extend fuel (ws ++ [w])

/-- One SHA-512 compression round. -/
def sha512Round (st : Sha2State) (k w : Nat) : Sha2State :=
  let s1 := rotr64 st.h4 14 ^^^ rotr64 st.h4 18 ^^^ rotr64 st.h4 41
  let ch := (st.h4 &&& st.h5) ^^^ ((mask64 ^^^ st.h4) &&& st.h6)
  let t1 := (st.h7 + s1 + ch + k + w) &&& mask64
  let s0 := rotr64 st.h0 28 ^^^ rotr64 st.h0 34 ^^^ rotr64 st.h0 39
  let maj := (st.h0 &&& st.h1) ^^^ (st.h0 &&& st.h2) ^^^ (st.h1 &&& st.h2)
  let t2 := (s0 + maj) &&& mask64
  ⟨(t1 + t2) &&& mask64, st.h0, st.h1, st.h2, (st.h3 + t1) &&& mask64,
   st.h4, st.h5, st.h6⟩

/-- Compress one 128-byte block into the chaining state. -/
def sha512Compress (st : Sha2State) (block : List Nat) : Sha2State :=
  let ws := sha512Extend 64 (bytesToWords64 block)
  let r := sha2Rounds sha512Round sha512K ws st
  ⟨(st.h0 + r.h0) &&& mask64, (st.h1 + r.h1) &&& mask64,
   (st.h2 + r.h2) &&& mask64, (st.h3 + r.h3) &&& mask64,
   (st.h4 + r.h4) &&& mask64, (st.h5 + r.h5) &&& mask64,
   (st.h6 + r.h6) &&& mask64, (st.h7 + r.h7) &&& mask64⟩

/-- Padding for SHA-512: `0x80`, zeros, 16-byte big-endian bit length,
to a multiple of 128 bytes. -/
def sha512Pad (msg : List Nat) : List Nat :=
  msg ++ 0x80 :: (List.replicate ((128 - (msg.length + 17) % 128) % 128) 0 ++
    beBytes 16 (8 * msg.length))

def sha512Fold : Nat → Sha2State → List Nat → Sha2State
  | 0, st, _ => st
  | n + 1, st, bs => sha512Fold n (sha512Compress st (bs.take 128)) (bs.drop 128)

def word64Bytes (w : Nat) : List Nat :=
  [(w >>> 56) &&& 0xFF, (w >>> 48) &&& 0xFF, (w >>> 40) &&& 0xFF, (w >>> 32) &&& 0xFF,
   (w >>> 24) &&& 0xFF, (w >>> 16) &&& 0xFF, (w >>> 8) &&& 0xFF, w &&& 0xFF]

def sha2StateBytes64 (st : Sha2State) : List Nat :=
  word64Bytes st.h0 ++ word64Bytes st.h1 ++ word64Bytes st.h2 ++ word64Bytes st.h3 ++
  word64Bytes st.h4 ++ word64Bytes st.h5 ++ word64Bytes st.h6 ++ word64Bytes st.h7

/-- SHA-512 of a byte string (Go `sha512.Sum512`). -/
def sha512 (msg : List Nat) : List Nat :=
  let padded := sha512Pad msg
  sha2StateBytes64 (sha512Fold (padded.length / 128) sha512Init padded)

/-! ## HMAC (Go `crypto/hmac`) -/

/-- HMAC over an arbitrary hash with the given block size
(`hmac.New(factory, key)` followed by `Write` and `Sum`). -/
def hmac (hashF : List Nat → List Nat) (blockSize : Nat)
    (key msg : List Nat) : List Nat :=
  let k0 := if blockSize < key.length then hashF key else key
  let kp := k0 ++ List.replicate (blockSize - k0.length) 0
  let inner := hashF ((kp.map (fun b => b ^^^ 0x36)) ++ msg)
  hashF ((kp.map (fun b => b ^^^ 0x5C)) ++ inner)

def hmacSha256 (key msg : List Nat) : List Nat := hmac sha256 64 key msg

def hmacSha512 (key msg : List Nat) : List Nat := hmac sha512 128 key msg

/-! ## The `webhooks` package (`client.go`, lines 160–221 of the
concatenated source): metadata builder and signing helpers. -/

def MetadataOrgID : List Char := "org_id".toList

def MetadataConnectionID : List Char := "connection_id".toList

def MetadataPaymentID : List Char := "payment_id".toList

/-- Go `BuildMetadata` returns the canonical metadata map expected by
Reevit webhooks.  The Go `map[string]string` is embedded as an
association list; keys are distinct constants, so the map is exactly
this set of entries. -/
def BuildMetadata (orgID connectionID paymentID : List Char) :
    List (List Char × List Char) :=
  (if trimSpace orgID = [] then [] else [(MetadataOrgID, trimSpace orgID)]) ++
  (if trimSpace connectionID = [] then [] else [(MetadataConnectionID, trimSpace connectionID)]) ++
  (if trimSpace paymentID = [] then [] else [(MetadataPaymentID, trimSpace paymentID)])

/-- Association-list lookup, for stating which keys the metadata map
contains. -/
def metaLookup (m : List (List Char × List Char)) (k : List Char) :
    Option (List Char) :=
  match m with
  | [] => none
  | (k2, v) :: t => if k2 = k then some v else metaLookup t k

/-- Go `signHex(body, secret, factory)`: trim the secret, return `""` on
empty body or blank secret, otherwise the lowercase hex HMAC. -/
def signHex (body : List Nat) (secret : List Char)
    (hashF : List Nat → List Nat) (blockSize : Nat) : List Char :=
  let secret' := trimSpace secret
  if body.length = 0 ∨ secret' = [] then []
  else hexEncode (hmac hashF blockSize (utf8Encode secret') body)

/-- Go `SignPaystack`: HMAC SHA-512 of the raw body. -/
def SignPaystack (body : List Nat) (secretKey : List Char) : List Char :=
  signHex body secretKey sha512 128

/-- Go `SignHubtel`: HMAC SHA-256 of the raw body. -/
def SignHubtel (body : List Nat) (clientSecret : List Char) : List Char :=
  signHex body clientSecret sha256 64

/-- Go `SignPolar`: HMAC SHA-256 of the raw body. -/
def SignPolar (body : List Nat) (clientSecret : List Char) : List Char :=
  signHex body clientSecret sha256 64

/-- Go `FlutterwaveHash` simply returns the verif-hash header value. -/
def FlutterwaveHash (secretHash : List Char) : List Char :=
  trimSpace secretHash

/-- Go `hmac.Equal`: constant-time comparison, true exactly when the two
byte strings are equal. -/
def hmacEqual (a b : List Nat) : Bool := a == b

/-- Go `VerifySignature` from the README webhook-handler example: check the
literal `sha256=` prefix, strip it (`signature[7:]` — the prefix is
seven ASCII bytes, i.e. seven runes), recompute the HMAC and compare
the hex strings byte-wise in constant time. -/
def VerifySignature (payload : List Nat) (signature secret : List Char) : Bool :=
  if ("sha256=".toList).isPrefixOf signature then
    let expected := hexEncode (hmacSha256 (utf8Encode secret) payload)
    let received := signature.drop 7
    hmacEqual (utf8Encode received) (utf8Encode expected)
  else false

/-! ## Decimal rendering (Go `strconv` / `fmt` `%d`) -/

/-- Tail of the decimal renderer; the fuel dominates the number of
digits, mirroring `strconv.AppendInt`'s digit loop. -/
def toDecimalAux : Nat → Nat → List Char → List Char
  | 0, _, acc => acc
  | fuel + 1, n, acc =>
      let acc' := Char.ofNat (48 + n % 10) :: acc
      if n < 10 then acc' else toDecimalAux fuel (n / 10) acc'

/-- Decimal rendering of a natural number. -/
def toDecimal (n : Nat) : List Char := toDecimalAux (n + 1) n []

/-- Decimal rendering of an integer (`strconv.FormatInt`). -/
def intDecimal (i : Int) : List Char :=
  if i < 0 then '-' :: toDecimal i.natAbs else toDecimal i.natAbs

/-! ## JSON values and `encoding/json` serialization

`GenerateIdempotencyKey` takes a `map[string]any` and serializes each
value with `json.Marshal`.  The embedding restricts the value universe
to flat JSON scalars — strings, integers, booleans, null — which is the
domain the spec's canonical-encoding guarantees cover ("document that
only flat maps are guaranteed canonical"). -/

inductive Jvalue where
  | JStr : List Char → Jvalue
  | JInt : Int → Jvalue
  | JBool : Bool → Jvalue
  | JNull : Jvalue
deriving DecidableEq

/-- Per-rune escaping of `encoding/json` string encoding (with the
default HTML escaping of `json.Marshal`). -/
def jsonEscapeChar (c : Char) : List Char :=
  if c = '"' then ['\\', '"']
  else if c = '\\' then ['\\', '\\']
  else if c = '\n' then ['\\', 'n']
  else if c = '\r' then ['\\', 'r']
  else if c = '\t' then ['\\', 't']
  else if c.toNat < 0x20 then
    ['\\', 'u', '0', '0', hexDigitChar (c.toNat / 16), hexDigitChar (c.toNat % 16)]
  else if c = '<' ∨ c = '>' ∨ c = '&' then
    ['\\', 'u', '0', '0', hexDigitChar (c.toNat / 16), hexDigitChar (c.toNat % 16)]
  else if c.toNat = 0x2028 ∨ c.toNat = 0x2029 then
    ['\\', 'u', '2', '0', '2', hexDigitChar (c.toNat % 16)]
  else [c]

/-- Go `json.Marshal` on the embedded value universe. -/
def jsonSerialize : Jvalue → List Char
  | .JStr s => '"' :: ((s.map jsonEscapeChar).flatten ++ ['"'])
  | .JInt i => intDecimal i
  | .JBool true => "true".toList
  | .JBool false => "false".toList
  | .JNull => "null".toList

/-! ## Canonical encoding and the idempotency key (`idempotency.go`) -/

/-- Byte-wise (= rune-wise, by UTF-8 order preservation) string order of
Go's `sort.Strings`, as a Boolean `≤`. -/
def strLe : List Char → List Char → Bool
  | [], _ => true
  | _ :: _, [] => false
  | a :: as, b :: bs =>
      decide (a.toNat < b.toNat) || (a.toNat == b.toNat && strLe as bs)

/-- The order `strLe` as a relation on map entries, ordering by key. -/
def keyLe (e1 e2 : List Char × Jvalue) : Prop := strLe e1.1 e2.1 = true

instance : DecidableRel keyLe := fun _ _ => instDecidableEqBool _ _

/-- The order `strLe` as a relation on keys. -/
def strLeP (a b : List Char) : Prop := strLe a b = true

instance : DecidableRel strLeP := fun _ _ => instDecidableEqBool _ _

/-- One `<key>:<json-serialization-of-value>` entry of the canonical
encoding. -/
def encodeEntry (e : List Char × Jvalue) : List Char :=
  e.1 ++ ':' :: jsonSerialize e.2

/-- Join entries with the `|` separator (the `strings.Builder` loop). -/
def joinBar : List (List Char) → List Char
  | [] => []
  | [x] => x
  | x :: y :: t => x ++ '|' :: joinBar (y :: t)

/-- The canonical encoding built inside `GenerateIdempotencyKey`: sort
the map's entries by key ascending and join `key:json(value)` with `|`.
The Go map is embedded as an association list with distinct keys;
collecting the keys, sorting them and looking each one up is the same
as sorting the entries by key. -/
def canonicalEncoding (params : List (List Char × Jvalue)) : List Char :=
  joinBar ((List.insertionSort keyLe params).map encodeEntry)

/-- Go `GenerateIdempotencyKey` with the wall-clock reading
(`time.Now().Unix()`, epoch seconds) made an explicit argument. -/
def GenerateIdempotencyKey (params : List (List Char × Jvalue)) (now : Nat) :
    List Char :=
  let sum := sha256 (utf8Encode (canonicalEncoding params))
  let timeBucket := now / (5 * 60)
  "reevit_".toList ++ (toDecimal timeBucket ++ '_' :: hexEncode sum)

/-- Map lookup (total, on maps whose keys are distinct), for the
reference rendering of the canonical encoding. -/
def lookupValue (params : List (List Char × Jvalue)) (k : List Char) : Jvalue :=
  match params with
  | [] => .JNull
  | (k2, v) :: t => if k2 = k then v else lookupValue t k

/-- Reference definition of the canonical encoding, following the
spec's words: collect all keys, sort ascending by byte value, for each
key in order append `<key>:<json-serialization-of-value>`, joining
successive entries with `|`. -/
def specCanonicalEncoding (params : List (List Char × Jvalue)) : List Char :=
  joinBar ((List.insertionSort strLeP (params.map Prod.fst)).map
    (fun k => k ++ ':' :: jsonSerialize (lookupValue params k)))

/-- Value of one lowercase hex digit character. -/
def hexVal (c : Char) : Nat :=
  if c.toNat ≤ 57 then c.toNat - 48 else c.toNat - 87

/-- Decoder for `encoding/json` string escaping, the left inverse used
to show the escaping injective. -/
def jsonUnescape : List Char → Option (List Char)
  | [] => some []
  | c :: t =>
      if c = '\\' then
        match t with
        | [] => none
        | e :: t2 =>
            if e = '"' then (jsonUnescape t2).map (fun l => '"' :: l)
            else if e = '\\' then (jsonUnescape t2).map (fun l => '\\' :: l)
            else if e = 'n' then (jsonUnescape t2).map (fun l => '\n' :: l)
            else if e = 'r' then (jsonUnescape t2).map (fun l => '\r' :: l)
            else if e = 't' then (jsonUnescape t2).map (fun l => '\t' :: l)
            else if e = 'u' then
              match t2 with
              | h1 :: h2 :: h3 :: h4 :: t3 =>
                  (jsonUnescape t3).map (fun l =>
                    Char.ofNat (hexVal h1 * 4096 + hexVal h2 * 256 +
                      hexVal h3 * 16 + hexVal h4) :: l)
              | _ => none
            else none
      else (jsonUnescape t).map (fun l => c :: l)

/-- The separator-collision-free domain on which the canonical encoding
is injective: no `:` or `|` in a key, no `|` in a serialized value. -/
def EncOk (params : List (List Char × Jvalue)) : Prop :=
  ∀ e ∈ params, (':' ∉ e.1 ∧ '|' ∉ e.1) ∧ '|' ∉ jsonSerialize e.2

instance (params : List (List Char × Jvalue)) : Decidable (EncOk params) :=
  List.decidableBAll _ params

/-- Recursive specification of the decimal digits, used to reason about
the fuelled renderer. -/
def decimalDigits (n : Nat) : List Char :=
  if n < 10 then [Char.ofNat (48 + n)]
  else decimalDigits (n / 10) ++ [Char.ofNat (48 + n % 10)]
decreasing_by exact Nat.div_lt_self (by omega) (by omega)

/-- Value of a digit string, most significant digit first. -/
def digitsVal (l : List Char) : Nat :=
  l.foldl (fun a c => 10 * a + (c.toNat - 48)) 0

/-- The sixteen lowercase hex digit characters. -/
def hexChars : List Char := "0123456789abcdef".toList

/-! ## Basic lemmas -/

theorem char_toNat_inj {a b : Char} (h : a.toNat = b.toNat) : a = b :=
  Char.eq_of_val_eq (UInt32.toNat.inj h)

/-- Splitting at a separator character that occurs in neither left part
is unambiguous. -/
theorem append_sep_inj {c : Char} :
    ∀ {a1 a2 b1 b2 : List Char}, c ∉ a1 → c ∉ a2 →
      a1 ++ c :: b1 = a2 ++ c :: b2 → a1 = a2 ∧ b1 = b2 := by
  intro a1
  induction a1 with
  | nil =>
      intro a2 b1 b2 _ h2 heq
      cases a2 with
      | nil => simpa using heq
      | cons x t =>
          simp only [List.nil_append, List.cons_append, List.cons.injEq] at heq
          exact absurd (heq.1 ▸ List.mem_cons_self x t) h2
  | cons x t ih =>
      intro a2 b1 b2 h1 h2 heq
      cases a2 with
      | nil =>
          simp only [List.nil_append, List.cons_append, List.cons.injEq] at heq
          exact absurd (heq.1.symm ▸ List.mem_cons_self x t) h1
      | cons y t2 =>
          simp only [List.cons_append, List.cons.injEq] at heq
          obtain ⟨hxy, hrest⟩ := heq
          have := ih (fun hm => h1 (List.mem_cons_of_mem x hm))
            (fun hm => h2 (List.mem_cons_of_mem y hm)) hrest
          exact ⟨by rw [hxy, this.1], this.2⟩

/-! ## Decimal rendering lemmas -/

theorem toDecimalAux_eq :
    ∀ fuel n acc, n < fuel → toDecimalAux fuel n acc = decimalDigits n ++ acc := by
  intro fuel
  induction fuel with
  | zero => omega
  | succ f ih =>
      intro n acc hn
      by_cases h10 : n < 10
      · rw [toDecimalAux, if_pos h10, decimalDigits, if_pos h10]
        simp [Nat.mod_eq_of_lt h10]
      · rw [toDecimalAux, if_neg h10, ih (n / 10) _ (by omega)]
        conv_rhs => rw [decimalDigits, if_neg h10]
        simp

theorem toDecimal_eq (n : Nat) : toDecimal n = decimalDigits n := by
  rw [toDecimal, toDecimalAux_eq (n + 1) n [] (Nat.lt_succ_self n)]
  simp

theorem digitChar_toNat : ∀ d, d < 10 → (Char.ofNat (48 + d)).toNat = 48 + d := by
  decide

theorem decimalDigits_digits :
    ∀ n, ∀ c ∈ decimalDigits n, 48 ≤ c.toNat ∧ c.toNat ≤ 57 := by
  intro n
  induction n using decimalDigits.induct with
  | case1 n h =>
      intro c hc
      rw [decimalDigits, if_pos h] at hc
      simp only [List.mem_singleton] at hc
      subst hc
      rw [digitChar_toNat n h]
      omega
  | case2 n h ih =>
      intro c hc
      rw [decimalDigits, if_neg h] at hc
      rcases List.mem_append.mp hc with hm | hm
      · exact ih c hm
      · simp only [List.mem_singleton] at hm
        subst hm
        rw [digitChar_toNat _ (Nat.mod_lt n (by omega))]
        omega

theorem foldl_digits_append (l : List Char) (c : Char) (a : Nat) :
    (l ++ [c]).foldl (fun a c => 10 * a + (c.toNat - 48)) a =
      10 * l.foldl (fun a c => 10 * a + (c.toNat - 48)) a + (c.toNat - 48) := by
  rw [List.foldl_append]
  rfl

theorem digitsVal_decimalDigits : ∀ n, digitsVal (decimalDigits n) = n := by
  intro n
  induction n using decimalDigits.induct with
  | case1 n h =>
      rw [decimalDigits, if_pos h]
      simp [digitsVal, List.foldl, digitChar_toNat n h]
  | case2 n h ih =>
      rw [decimalDigits, if_neg h]
      unfold digitsVal
      rw [foldl_digits_append]
      unfold digitsVal at ih
      rw [ih, digitChar_toNat _ (Nat.mod_lt n (by omega))]
      omega

theorem decimalDigits_inj {n m : Nat} (h : decimalDigits n = decimalDigits m) :
    n = m := by
  have := digitsVal_decimalDigits n
  rw [h, digitsVal_decimalDigits m] at this
  omega

theorem toDecimal_inj {n m : Nat} (h : toDecimal n = toDecimal m) : n = m :=
  decimalDigits_inj (by rwa [toDecimal_eq, toDecimal_eq] at h)

theorem underscore_not_mem_toDecimal (n : Nat) : '_' ∉ toDecimal n := by
  rw [toDecimal_eq]
  intro hm
  have := decimalDigits_digits n _ hm
  revert this
  decide

/-! ## Hex encoding lemmas -/

theorem byteHex_length (b : Nat) : (byteHex b).length = 2 := rfl

theorem hexEncode_length (bs : List Nat) : (hexEncode bs).length = 2 * bs.length := by
  induction bs with
  | nil => rfl
  | cons b t ih =>
      simp only [hexEncode, List.map_cons, List.flatten_cons] at *
      rw [List.length_append, ih, byteHex_length, List.length_cons]
      omega

theorem hexDigitChar_mem : ∀ x, x < 16 → hexDigitChar x ∈ hexChars := by decide

theorem hexEncode_chars (bs : List Nat) : ∀ c ∈ hexEncode bs, c ∈ hexChars := by
  induction bs with
  | nil => simp [hexEncode]
  | cons b t ih =>
      intro c hc
      simp only [hexEncode, List.map_cons, List.flatten_cons] at hc
      rcases List.mem_append.mp hc with hm | hm
      · simp only [byteHex, List.mem_cons, List.not_mem_nil, or_false] at hm
        rcases hm with h1 | h1 <;>
          (subst h1; exact hexDigitChar_mem _ (Nat.mod_lt _ (by omega)))
      · exact ih c hm

theorem hexDigitChar_inj :
    ∀ x, x < 16 → ∀ y, y < 16 → hexDigitChar x = hexDigitChar y → x = y := by
  decide

theorem byteHex_inj {b1 b2 : Nat} (h1 : b1 < 256) (h2 : b2 < 256)
    (h : byteHex b1 = byteHex b2) : b1 = b2 := by
  simp only [byteHex, List.cons.injEq, and_true] at h
  have e1 := hexDigitChar_inj _ (Nat.mod_lt _ (by omega)) _ (Nat.mod_lt _ (by omega)) h.1
  have e2 := hexDigitChar_inj _ (Nat.mod_lt _ (by omega)) _ (Nat.mod_lt _ (by omega)) h.2
  omega

theorem hexEncode_inj :
    ∀ {bs1 bs2 : List Nat}, (∀ b ∈ bs1, b < 256) → (∀ b ∈ bs2, b < 256) →
      hexEncode bs1 = hexEncode bs2 → bs1 = bs2 := by
  intro bs1
  induction bs1 with
  | nil =>
      intro bs2 _ _ h
      cases bs2 with
      | nil => rfl
      | cons b t => simp [hexEncode, byteHex] at h
  | cons b1 t1 ih =>
      intro bs2 hb1 hb2 h
      cases bs2 with
      | nil => simp [hexEncode, byteHex] at h
      | cons b2 t2 =>
          simp only [hexEncode, List.map_cons, List.flatten_cons, byteHex,
            List.cons_append, List.nil_append, List.cons.injEq] at h
          obtain ⟨e1, e2, erest⟩ := h
          have hb1' := hb1 b1 (List.mem_cons_self _ _)
          have hb2' := hb2 b2 (List.mem_cons_self _ _)
          have d1 := hexDigitChar_inj _ (Nat.mod_lt _ (by omega)) _
            (Nat.mod_lt _ (by omega)) e1
          have d2 := hexDigitChar_inj _ (Nat.mod_lt _ (by omega)) _
            (Nat.mod_lt _ (by omega)) e2
          have : b1 = b2 := by omega
          subst this
          rw [ih (fun b hb => hb1 b (List.mem_cons_of_mem _ hb))
            (fun b hb => hb2 b (List.mem_cons_of_mem _ hb))
            (by simpa [hexEncode] using erest)]

theorem hexChars_ascii : ∀ c ∈ hexChars, c.toNat < 128 := by decide

theorem underscore_not_mem_hexEncode (bs : List Nat) : '_' ∉ hexEncode bs := by
  intro hm
  have := hexEncode_chars bs _ hm
  revert this
  decide

/-! ## Digest shape lemmas -/

theorem nat_le_or_left (a b : Nat) : a ≤ a ||| b :=
  Nat.le_of_testBit (fun i h => by simp [Nat.testBit_or, h])

theorem and_255_lt (x : Nat) : x &&& 0xFF < 256 :=
  Nat.lt_succ_of_le Nat.and_le_right

theorem sha2StateBytes32_length (st : Sha2State) :
    (sha2StateBytes32 st).length = 32 := rfl

theorem sha2StateBytes64_length (st : Sha2State) :
    (sha2StateBytes64 st).length = 64 := rfl

theorem sha256_length (m : List Nat) : (sha256 m).length = 32 :=
  sha2StateBytes32_length _

theorem sha512_length (m : List Nat) : (sha512 m).length = 64 :=
  sha2StateBytes64_length _

theorem word32Bytes_lt (w : Nat) : ∀ b ∈ word32Bytes w, b < 256 := by
  intro b hb
  simp only [word32Bytes, List.mem_cons, List.not_mem_nil, or_false] at hb
  rcases hb with h | h | h | h <;> (subst h; exact and_255_lt _)

theorem word64Bytes_lt (w : Nat) : ∀ b ∈ word64Bytes w, b < 256 := by
  intro b hb
  simp only [word64Bytes, List.mem_cons, List.not_mem_nil, or_false] at hb
  rcases hb with h | h | h | h | h | h | h | h <;> (subst h; exact and_255_lt _)

theorem sha256_lt (m : List Nat) : ∀ b ∈ sha256 m, b < 256 := by
  intro b hb
  have hb' : b ∈ sha2StateBytes32 (sha256Fold ((sha256Pad m).length / 64)
      sha256Init (sha256Pad m)) := hb
  simp only [sha2StateBytes32, List.mem_append] at hb'
  rcases hb' with ((((((h | h) | h) | h) | h) | h) | h) | h <;>
    exact word32Bytes_lt _ _ h

theorem sha512_lt (m : List Nat) : ∀ b ∈ sha512 m, b < 256 := by
  intro b hb
  have hb' : b ∈ sha2StateBytes64 (sha512Fold ((sha512Pad m).length / 128)
      sha512Init (sha512Pad m)) := hb
  simp only [sha2StateBytes64, List.mem_append] at hb'
  rcases hb' with ((((((h | h) | h) | h) | h) | h) | h) | h <;>
    exact word64Bytes_lt _ _ h

theorem hmacSha256_length (key msg : List Nat) :
    (hmacSha256 key msg).length = 32 := sha256_length _

theorem hmacSha512_length (key msg : List Nat) :
    (hmacSha512 key msg).length = 64 := sha512_length _

theorem hmacSha256_lt (key msg : List Nat) : ∀ b ∈ hmacSha256 key msg, b < 256 :=
  sha256_lt _

theorem hmacSha512_lt (key msg : List Nat) : ∀ b ∈ hmacSha512 key msg, b < 256 :=
  sha512_lt _

/-! ## UTF-8 lemmas -/

theorem utf8EncodeChar_ascii {c : Char} (h : c.toNat < 128) :
    utf8EncodeChar c = [c.toNat] := by
  simp [utf8EncodeChar, h]

theorem utf8EncodeChar_high {c : Char} (h : ¬ c.toNat < 128) :
    ∃ b t, utf8EncodeChar c = b :: t ∧ 128 ≤ b := by
  rw [utf8EncodeChar]
  simp only [if_neg h]
  by_cases h2 : c.toNat < 0x800
  · rw [if_pos h2]
    exact ⟨_, _, rfl, le_trans (by norm_num) (nat_le_or_left 0xC0 _)⟩
  · rw [if_neg h2]
    by_cases h3 : c.toNat < 0x10000
    · rw [if_pos h3]
      exact ⟨_, _, rfl, le_trans (by norm_num) (nat_le_or_left 0xE0 _)⟩
    · rw [if_neg h3]
      exact ⟨_, _, rfl, le_trans (by norm_num) (nat_le_or_left 0xF0 _)⟩

theorem utf8EncodeChar_ne_nil (c : Char) : utf8EncodeChar c ≠ [] := by
  rw [utf8EncodeChar]
  split
  · simp
  · split
    · simp
    · split <;> simp

/-- UTF-8 encoding is injective when one side is ASCII: used to recover
string equality from `hmac.Equal` on the encoded bytes, the expected
side being a hex string. -/
theorem utf8Encode_ascii_inj :
    ∀ s1 s2 : List Char, (∀ c ∈ s2, c.toNat < 128) →
      utf8Encode s1 = utf8Encode s2 → s1 = s2 := by
  intro s1
  induction s1 with
  | nil =>
      intro s2 _ h
      cases s2 with
      | nil => rfl
      | cons c t =>
          simp only [utf8Encode, List.map_nil, List.flatten_nil, List.map_cons,
            List.flatten_cons] at h
          rcases List.append_eq_nil.mp h.symm with ⟨h1, _⟩
          exact absurd h1 (utf8EncodeChar_ne_nil c)
  | cons c1 t1 ih =>
      intro s2 hascii h
      cases s2 with
      | nil =>
          simp only [utf8Encode, List.map_nil, List.flatten_nil, List.map_cons,
            List.flatten_cons] at h
          rcases List.append_eq_nil.mp h with ⟨h1, _⟩
          exact absurd h1 (utf8EncodeChar_ne_nil c1)
      | cons c2 t2 =>
          simp only [utf8Encode, List.map_cons, List.flatten_cons] at h
          have h2 := hascii c2 (List.mem_cons_self _ _)
          rw [utf8EncodeChar_ascii h2] at h
          by_cases h1 : c1.toNat < 128
          · rw [utf8EncodeChar_ascii h1] at h
            simp only [List.cons_append, List.nil_append, List.cons.injEq] at h
            have : c1 = c2 := char_toNat_inj h.1
            rw [this, ih t2 (fun c hc => hascii c (List.mem_cons_of_mem _ hc))
              (by simpa [utf8Encode] using h.2)]
          · obtain ⟨b, t, he, hb⟩ := utf8EncodeChar_high h1
            rw [he] at h
            simp only [List.cons_append, List.nil_append, List.cons.injEq] at h
            omega

/-! ## String order lemmas (`sort.Strings` order) -/

theorem strLe_total : ∀ a b : List Char, strLe a b = true ∨ strLe b a = true := by
  intro a
  induction a with
  | nil => intro b; left; rfl
  | cons x xs ih =>
      intro b
      cases b with
      | nil => right; rfl
      | cons y ys =>
          simp only [strLe, Bool.or_eq_true, decide_eq_true_eq, Bool.and_eq_true,
            beq_iff_eq]
          rcases Nat.lt_trichotomy x.toNat y.toNat with h | h | h
          · exact Or.inl (Or.inl h)
          · rcases ih ys with h2 | h2
            · exact Or.inl (Or.inr ⟨h, h2⟩)
            · exact Or.inr (Or.inr ⟨h.symm, h2⟩)
          · exact Or.inr (Or.inl h)

theorem strLe_trans :
    ∀ {a b c : List Char}, strLe a b = true → strLe b c = true →
      strLe a c = true := by
  intro a
  induction a with
  | nil => intro b c _ _; rfl
  | cons x xs ih =>
      intro b c hab hbc
      cases b with
      | nil => simp [strLe] at hab
      | cons y ys =>
          cases c with
          | nil => simp [strLe] at hbc
          | cons z zs =>
              simp only [strLe, Bool.or_eq_true, decide_eq_true_eq,
                Bool.and_eq_true, beq_iff_eq] at *
              rcases hab with h1 | ⟨h1, h1'⟩ <;> rcases hbc with h2 | ⟨h2, h2'⟩
              · exact Or.inl (lt_trans h1 h2)
              · exact Or.inl (h2 ▸ h1)
              · exact Or.inl (h1 ▸ h2)
              · exact Or.inr ⟨h1.trans h2, ih h1' h2'⟩

theorem strLe_antisymm :
    ∀ {a b : List Char}, strLe a b = true → strLe b a = true → a = b := by
  intro a
  induction a with
  | nil =>
      intro b _ hba
      cases b with
      | nil => rfl
      | cons y ys => simp [strLe] at hba
  | cons x xs ih =>
      intro b hab hba
      cases b with
      | nil => simp [strLe] at hab
      | cons y ys =>
          simp only [strLe, Bool.or_eq_true, decide_eq_true_eq, Bool.and_eq_true,
            beq_iff_eq] at hab hba
          rcases hab with h1 | ⟨h1, h1'⟩ <;> rcases hba with h2 | ⟨h2, h2'⟩
          · omega
          · omega
          · omega
          · rw [char_toNat_inj h1, ih h1' h2']

instance : IsTotal (List Char × Jvalue) keyLe := ⟨fun a b => strLe_total a.1 b.1⟩

instance : IsTrans (List Char × Jvalue) keyLe :=
  ⟨fun _ _ _ h1 h2 => strLe_trans h1 h2⟩

instance : IsTotal (List Char) strLeP := ⟨strLe_total⟩

instance : IsTrans (List Char) strLeP := ⟨fun _ _ _ h1 h2 => strLe_trans h1 h2⟩

instance : IsAntisymm (List Char) strLeP := ⟨fun _ _ h1 h2 => strLe_antisymm h1 h2⟩

/-! ## Sorting and canonical-encoding lemmas -/

/-- Two permutations of the same entry list (a Go map iterated in any
order) sort to the same list: sorting by key is deterministic once the
keys are distinct. -/
theorem insertionSort_eq_of_perm {p1 p2 : List (List Char × Jvalue)}
    (hperm : p1.Perm p2) (hnd : (p1.map Prod.fst).Nodup) :
    List.insertionSort keyLe p1 = List.insertionSort keyLe p2 := by
  have hs1 := List.sorted_insertionSort keyLe p1
  have hs2 := List.sorted_insertionSort keyLe p2
  have hp1 := List.perm_insertionSort keyLe p1
  have hp2 := List.perm_insertionSort keyLe p2
  have hperm' : (List.insertionSort keyLe p1).Perm (List.insertionSort keyLe p2) :=
    hp1.trans (hperm.trans hp2.symm)
  have hnd1 : ((List.insertionSort keyLe p1).map Prod.fst).Nodup :=
    ((hp1.map Prod.fst).nodup_iff).mpr hnd
  have hnd2 : ((List.insertionSort keyLe p2).map Prod.fst).Nodup :=
    ((hperm'.map Prod.fst).nodup_iff).mp hnd1
  have hne1 : List.Pairwise (fun a b : List Char × Jvalue => a.1 ≠ b.1)
      (List.insertionSort keyLe p1) := List.pairwise_map.mp hnd1
  have hne2 : List.Pairwise (fun a b : List Char × Jvalue => a.1 ≠ b.1)
      (List.insertionSort keyLe p2) := List.pairwise_map.mp hnd2
  have hanti : IsAntisymm (List Char × Jvalue)
      (fun a b => keyLe a b ∧ a.1 ≠ b.1) :=
    ⟨fun _ _ h1 h2 => absurd (strLe_antisymm h1.1 h2.1) h1.2⟩
  exact @List.eq_of_perm_of_sorted _ _ hanti _ _ hperm' (hs1.and hne1) (hs2.and hne2)

/-- Sorting the entries by key and then projecting the keys is the same
as sorting the collected keys (the Go code collects and sorts keys, then
looks each one up). -/
theorem map_fst_insertionSort (l : List (List Char × Jvalue)) :
    (List.insertionSort keyLe l).map Prod.fst =
      List.insertionSort strLeP (l.map Prod.fst) := by
  apply List.eq_of_perm_of_sorted (r := strLeP)
  · exact ((List.perm_insertionSort keyLe l).map Prod.fst).trans
      (List.perm_insertionSort strLeP (l.map Prod.fst)).symm
  · exact List.pairwise_map.mpr (List.sorted_insertionSort keyLe l)
  · exact List.sorted_insertionSort strLeP _

theorem lookupValue_eq :
    ∀ {l : List (List Char × Jvalue)} {k : List Char} {v : Jvalue},
      (l.map Prod.fst).Nodup → (k, v) ∈ l → lookupValue l k = v := by
  intro l
  induction l with
  | nil => intro k v _ hm; cases hm
  | cons e t ih =>
      intro k v hnd hm
      obtain ⟨k2, v2⟩ := e
      simp only [List.map_cons, List.nodup_cons] at hnd
      rcases List.mem_cons.mp hm with he | ht
      · injection he.symm with h1 h2
        rw [lookupValue, if_pos h1]
        exact h2
      · have hk : k2 ≠ k := by
          intro h
          exact hnd.1 (h ▸ List.mem_map_of_mem Prod.fst ht)
        rw [lookupValue, if_neg hk]
        exact ih hnd.2 ht

/-- The canonical encoding computed inside `GenerateIdempotencyKey`
agrees with the spec's reference rendering (sorted keys, looked-up
values). -/
theorem canonicalEncoding_eq_spec {params : List (List Char × Jvalue)}
    (hnd : (params.map Prod.fst).Nodup) :
    canonicalEncoding params = specCanonicalEncoding params := by
  unfold canonicalEncoding specCanonicalEncoding
  rw [← map_fst_insertionSort, List.map_map]
  congr 1
  apply List.map_congr_left
  intro e he
  have hmem : e ∈ params := (List.perm_insertionSort keyLe params).mem_iff.mp he
  obtain ⟨k, v⟩ := e
  simp only [Function.comp_apply]
  rw [lookupValue_eq hnd hmem]
  rfl

/-- The canonical encoding is independent of the order in which the
caller's map iterates its entries. -/
theorem canonicalEncoding_perm {p1 p2 : List (List Char × Jvalue)}
    (hperm : p1.Perm p2) (hnd : (p1.map Prod.fst).Nodup) :
    canonicalEncoding p1 = canonicalEncoding p2 := by
  unfold canonicalEncoding
  rw [insertionSort_eq_of_perm hperm hnd]

/-! ## JSON serialization injectivity -/

theorem hexVal_hexDigitChar : ∀ x, x < 16 → hexVal (hexDigitChar x) = x := by
  decide

theorem jsonUnescape_quote (X : List Char) :
    jsonUnescape ('\\' :: '"' :: X) =
      (jsonUnescape X).map (fun l => '"' :: l) := by
  rw [jsonUnescape.eq_def]
  simp +decide

theorem jsonUnescape_backslash (X : List Char) :
    jsonUnescape ('\\' :: '\\' :: X) =
      (jsonUnescape X).map (fun l => '\\' :: l) := by
  rw [jsonUnescape.eq_def]
  simp +decide

theorem jsonUnescape_nl (X : List Char) :
    jsonUnescape ('\\' :: 'n' :: X) =
      (jsonUnescape X).map (fun l => '\n' :: l) := by
  rw [jsonUnescape.eq_def]
  simp +decide

theorem jsonUnescape_cr (X : List Char) :
    jsonUnescape ('\\' :: 'r' :: X) =
      (jsonUnescape X).map (fun l => '\r' :: l) := by
  rw [jsonUnescape.eq_def]
  simp +decide

theorem jsonUnescape_tab (X : List Char) :
    jsonUnescape ('\\' :: 't' :: X) =
      (jsonUnescape X).map (fun l => '\t' :: l) := by
  rw [jsonUnescape.eq_def]
  simp +decide

theorem jsonUnescape_u (d1 d2 d3 d4 : Char) (X : List Char) :
    jsonUnescape ('\\' :: 'u' :: d1 :: d2 :: d3 :: d4 :: X) =
      (jsonUnescape X).map (fun l =>
        Char.ofNat (hexVal d1 * 4096 + hexVal d2 * 256 + hexVal d3 * 16 +
          hexVal d4) :: l) := by
  rw [jsonUnescape.eq_def]
  simp +decide

theorem jsonUnescape_plain (c : Char) (X : List Char) (h : c ≠ '\\') :
    jsonUnescape (c :: X) = (jsonUnescape X).map (fun l => c :: l) := by
  rw [jsonUnescape.eq_def]
  simp [h]

/-- Unescaping undoes the escaping of a single character at the front of
a longer escaped stream. -/
theorem jsonUnescape_escapeChar (c : Char) {X : List Char} {rest : List Char}
    (h : jsonUnescape X = some rest) :
    jsonUnescape (jsonEscapeChar c ++ X) = some (c :: rest) := by
  by_cases h1 : c = '"'
  · subst h1
    show jsonUnescape ('\\' :: '"' :: X) = _
    rw [jsonUnescape_quote, h]
    rfl
  by_cases h2 : c = '\\'
  · subst h2
    show jsonUnescape ('\\' :: '\\' :: X) = _
    rw [jsonUnescape_backslash, h]
    rfl
  by_cases h3 : c = '\n'
  · subst h3
    show jsonUnescape ('\\' :: 'n' :: X) = _
    rw [jsonUnescape_nl, h]
    rfl
  by_cases h4 : c = '\r'
  · subst h4
    show jsonUnescape ('\\' :: 'r' :: X) = _
    rw [jsonUnescape_cr, h]
    rfl
  by_cases h5 : c = '\t'
  · subst h5
    show jsonUnescape ('\\' :: 't' :: X) = _
    rw [jsonUnescape_tab, h]
    rfl
  by_cases h6 : c.toNat < 0x20
  · rw [jsonEscapeChar, if_neg h1, if_neg h2, if_neg h3, if_neg h4, if_neg h5,
      if_pos h6]
    simp only [List.cons_append, List.nil_append]
    rw [jsonUnescape_u, h]
    have h0 : hexVal '0' = 0 := rfl
    rw [h0, hexVal_hexDigitChar (c.toNat / 16) (by omega),
      hexVal_hexDigitChar (c.toNat % 16) (by omega)]
    have hval : 0 * 4096 + 0 * 256 + c.toNat / 16 * 16 + c.toNat % 16 = c.toNat := by
      omega
    rw [hval, Char.ofNat_toNat]
    rfl
  by_cases h7 : c = '<' ∨ c = '>' ∨ c = '&'
  · rw [jsonEscapeChar, if_neg h1, if_neg h2, if_neg h3, if_neg h4, if_neg h5,
      if_neg h6, if_pos h7]
    simp only [List.cons_append, List.nil_append]
    rw [jsonUnescape_u, h]
    have h0 : hexVal '0' = 0 := rfl
    have hlt : c.toNat < 256 := by
      rcases h7 with h7 | h7 | h7 <;> subst h7 <;> decide
    rw [h0, hexVal_hexDigitChar (c.toNat / 16) (by omega),
      hexVal_hexDigitChar (c.toNat % 16) (by omega)]
    have hval : 0 * 4096 + 0 * 256 + c.toNat / 16 * 16 + c.toNat % 16 = c.toNat := by
      omega
    rw [hval, Char.ofNat_toNat]
    rfl
  by_cases h8 : c.toNat = 0x2028 ∨ c.toNat = 0x2029
  · rw [jsonEscapeChar, if_neg h1, if_neg h2, if_neg h3, if_neg h4, if_neg h5,
      if_neg h6, if_neg h7, if_pos h8]
    simp only [List.cons_append, List.nil_append]
    rw [jsonUnescape_u, h]
    have h0 : hexVal '0' = 0 := rfl
    have h2v : hexVal '2' = 2 := rfl
    rw [h0, h2v, hexVal_hexDigitChar (c.toNat % 16) (by omega)]
    have hval : 2 * 4096 + 0 * 256 + 2 * 16 + c.toNat % 16 = c.toNat := by
      rcases h8 with h8 | h8 <;> omega
    rw [hval, Char.ofNat_toNat]
    rfl
  · rw [jsonEscapeChar, if_neg h1, if_neg h2, if_neg h3, if_neg h4, if_neg h5,
      if_neg h6, if_neg h7, if_neg h8]
    simp only [List.cons_append, List.nil_append]
    rw [jsonUnescape_plain c X h2, h]
    rfl

theorem jsonUnescape_escape (s : List Char) :
    jsonUnescape ((s.map jsonEscapeChar).flatten) = some s := by
  induction s with
  | nil => rfl
  | cons c t ih =>
      simp only [List.map_cons, List.flatten_cons]
      exact jsonUnescape_escapeChar c ih

theorem escapeString_inj {s1 s2 : List Char}
    (h : (s1.map jsonEscapeChar).flatten = (s2.map jsonEscapeChar).flatten) :
    s1 = s2 := by
  have h1 := jsonUnescape_escape s1
  rw [h, jsonUnescape_escape s2] at h1
  injection h1 with h2
  exact h2.symm

theorem decimalDigits_ne_nil (n : Nat) : decimalDigits n ≠ [] := by
  rw [decimalDigits]
  split <;> simp

theorem intDecimal_head (i : Int) :
    ∃ c t, intDecimal i = c :: t ∧ 45 ≤ c.toNat ∧ c.toNat ≤ 57 := by
  unfold intDecimal
  split
  · exact ⟨'-', _, rfl, by decide, by decide⟩
  · rw [toDecimal_eq]
    cases hd : decimalDigits i.natAbs with
    | nil => exact absurd hd (decimalDigits_ne_nil _)
    | cons c t =>
        have hm := decimalDigits_digits i.natAbs c (hd ▸ List.mem_cons_self c t)
        exact ⟨c, t, rfl, by omega, hm.2⟩

theorem intDecimal_inj {i j : Int} (h : intDecimal i = intDecimal j) : i = j := by
  unfold intDecimal at h
  by_cases hi : i < 0 <;> by_cases hj : j < 0 <;>
    simp only [if_pos, if_neg, hi, hj, reduceIte] at h
  · simp only [List.cons.injEq, true_and] at h
    have := toDecimal_inj h
    omega
  · simp only [toDecimal_eq] at h
    cases hd : decimalDigits j.natAbs with
    | nil => exact absurd hd (decimalDigits_ne_nil _)
    | cons c t =>
        rw [hd] at h
        injection h with h1 _
        have hm := decimalDigits_digits j.natAbs c (hd ▸ List.mem_cons_self c t)
        have h45 : ('-').toNat = 45 := rfl
        have hc := congrArg Char.toNat h1
        omega
  · simp only [toDecimal_eq] at h
    cases hd : decimalDigits i.natAbs with
    | nil => exact absurd hd (decimalDigits_ne_nil _)
    | cons c t =>
        rw [hd] at h
        injection h with h1 _
        have hm := decimalDigits_digits i.natAbs c (hd ▸ List.mem_cons_self c t)
        have h45 : ('-').toNat = 45 := rfl
        have hc := congrArg Char.toNat h1
        omega
  · have := toDecimal_inj h
    omega

/-- First character of each serialized value; the classes are pairwise
disjoint across constructors. -/
theorem jsonSerialize_head (v : Jvalue) :
    ∃ c t, jsonSerialize v = c :: t ∧
      (match v with
       | .JStr _ => c.toNat = 34
       | .JInt _ => 45 ≤ c.toNat ∧ c.toNat ≤ 57
       | .JBool true => c.toNat = 116
       | .JBool false => c.toNat = 102
       | .JNull => c.toNat = 110) := by
  cases v with
  | JStr s => exact ⟨'"', _, rfl, rfl⟩
  | JInt i =>
      obtain ⟨c, t, he, h1, h2⟩ := intDecimal_head i
      exact ⟨c, t, he, h1, h2⟩
  | JBool b => cases b with
      | true => exact ⟨'t', _, rfl, rfl⟩
      | false => exact ⟨'f', _, rfl, rfl⟩
  | JNull => exact ⟨'n', _, rfl, rfl⟩

theorem jsonSerialize_inj :
    ∀ {v1 v2 : Jvalue}, jsonSerialize v1 = jsonSerialize v2 → v1 = v2 := by
  have head2 : ∀ {v1 v2 : Jvalue}, jsonSerialize v1 = jsonSerialize v2 →
      ∃ c, (∃ t, jsonSerialize v1 = c :: t) ∧
        (match v1 with
         | .JStr _ => c.toNat = 34
         | .JInt _ => 45 ≤ c.toNat ∧ c.toNat ≤ 57
         | .JBool true => c.toNat = 116
         | .JBool false => c.toNat = 102
         | .JNull => c.toNat = 110) ∧
        (match v2 with
         | .JStr _ => c.toNat = 34
         | .JInt _ => 45 ≤ c.toNat ∧ c.toNat ≤ 57
         | .JBool true => c.toNat = 116
         | .JBool false => c.toNat = 102
         | .JNull => c.toNat = 110) := by
    intro v1 v2 h
    obtain ⟨c1, t1, e1, p1⟩ := jsonSerialize_head v1
    obtain ⟨c2, t2, e2, p2⟩ := jsonSerialize_head v2
    rw [e1, e2] at h
    injection h with hc _
    subst hc
    exact ⟨c1, ⟨t1, e1⟩, p1, p2⟩
  intro v1 v2 h
  cases v1 with
  | JStr s1 =>
      cases v2 with
      | JStr s2 =>
          simp only [jsonSerialize, List.cons.injEq, true_and] at h
          rw [escapeString_inj (List.append_cancel_right h)]
      | JInt i => obtain ⟨c, _, p1, p2⟩ := head2 h; omega
      | JBool b => cases b <;> (obtain ⟨c, _, p1, p2⟩ := head2 h; omega)
      | JNull => obtain ⟨c, _, p1, p2⟩ := head2 h; omega
  | JInt i1 =>
      cases v2 with
      | JStr s2 => obtain ⟨c, _, p1, p2⟩ := head2 h; omega
      | JInt i2 =>
          simp only [jsonSerialize] at h
          rw [intDecimal_inj h]
      | JBool b => cases b <;> (obtain ⟨c, _, p1, p2⟩ := head2 h; omega)
      | JNull => obtain ⟨c, _, p1, p2⟩ := head2 h; omega
  | JBool b1 =>
      cases v2 with
      | JStr s2 => cases b1 <;> (obtain ⟨c, _, p1, p2⟩ := head2 h; omega)
      | JInt i2 => cases b1 <;> (obtain ⟨c, _, p1, p2⟩ := head2 h; omega)
      | JBool b2 =>
          cases b1 <;> cases b2 <;> first
            | rfl
            | (exfalso; revert h; simp [jsonSerialize])
      | JNull => cases b1 <;> (obtain ⟨c, _, p1, p2⟩ := head2 h; omega)
  | JNull =>
      cases v2 with
      | JStr s2 => obtain ⟨c, _, p1, p2⟩ := head2 h; omega
      | JInt i2 => obtain ⟨c, _, p1, p2⟩ := head2 h; omega
      | JBool b2 => cases b2 <;> (obtain ⟨c, _, p1, p2⟩ := head2 h; omega)
      | JNull => rfl

theorem escapeString_inj' {s1 s2 : List Char}
    (h : jsonSerialize (.JStr s1) = jsonSerialize (.JStr s2)) : s1 = s2 := by
  simp only [jsonSerialize, List.cons.injEq, true_and] at h
  exact escapeString_inj (List.append_cancel_right h)

/-! ## Canonical-encoding injectivity on the separator-free domain -/

theorem encodeEntry_ne_nil (e : List Char × Jvalue) : encodeEntry e ≠ [] := by
  unfold encodeEntry
  simp

theorem bar_not_mem_encodeEntry {e : List Char × Jvalue}
    (hk : '|' ∉ e.1) (hv : '|' ∉ jsonSerialize e.2) : '|' ∉ encodeEntry e := by
  unfold encodeEntry
  intro hm
  rcases List.mem_append.mp hm with h | h
  · exact hk h
  · rcases List.mem_cons.mp h with h | h
    · exact absurd h (by decide)
    · exact hv h

theorem encodeEntry_inj {e1 e2 : List Char × Jvalue}
    (h1 : ':' ∉ e1.1) (h2 : ':' ∉ e2.1)
    (h : encodeEntry e1 = encodeEntry e2) : e1 = e2 := by
  obtain ⟨k1, v1⟩ := e1
  obtain ⟨k2, v2⟩ := e2
  unfold encodeEntry at h
  obtain ⟨hk, hv⟩ := append_sep_inj h1 h2 h
  have hk' : k1 = k2 := hk
  have hv' : jsonSerialize v1 = jsonSerialize v2 := hv
  rw [hk', jsonSerialize_inj hv']

theorem map_encodeEntry_inj :
    ∀ {l1 l2 : List (List Char × Jvalue)},
      (∀ e ∈ l1, ':' ∉ e.1) → (∀ e ∈ l2, ':' ∉ e.1) →
      l1.map encodeEntry = l2.map encodeEntry → l1 = l2 := by
  intro l1
  induction l1 with
  | nil =>
      intro l2 _ _ h
      cases l2 with
      | nil => rfl
      | cons e t => simp at h
  | cons e1 t1 ih =>
      intro l2 hc1 hc2 h
      cases l2 with
      | nil => simp at h
      | cons e2 t2 =>
          simp only [List.map_cons, List.cons.injEq] at h
          rw [encodeEntry_inj (hc1 e1 (List.mem_cons_self _ _))
              (hc2 e2 (List.mem_cons_self _ _)) h.1,
            ih (fun e he => hc1 e (List.mem_cons_of_mem _ he))
              (fun e he => hc2 e (List.mem_cons_of_mem _ he)) h.2]

theorem joinBar_inj :
    ∀ {l1 l2 : List (List Char)},
      (∀ x ∈ l1, x ≠ [] ∧ '|' ∉ x) → (∀ x ∈ l2, x ≠ [] ∧ '|' ∉ x) →
      joinBar l1 = joinBar l2 → l1 = l2 := by
  intro l1
  induction l1 with
  | nil =>
      intro l2 _ hc2 h
      cases l2 with
      | nil => rfl
      | cons y t2 =>
          cases t2 with
          | nil => exact absurd h.symm (hc2 y (List.mem_cons_self _ _)).1
          | cons z t3 =>
              exfalso
              have h' : ([] : List Char) = y ++ '|' :: joinBar (z :: t3) := h
              exact List.noConfusion (List.append_eq_nil.mp h'.symm).2
  | cons x t1 ih =>
      intro l2 hc1 hc2 h
      cases l2 with
      | nil =>
          cases t1 with
          | nil => exact absurd h (hc1 x (List.mem_cons_self _ _)).1
          | cons z t3 =>
              exfalso
              have h' : x ++ '|' :: joinBar (z :: t3) = ([] : List Char) := h
              exact List.noConfusion (List.append_eq_nil.mp h').2
      | cons y t2 =>
          cases t1 with
          | nil =>
              cases t2 with
              | nil =>
                  have h' : x = y := h
                  rw [h']
              | cons z2 t3 =>
                  exfalso
                  have h' : x = y ++ '|' :: joinBar (z2 :: t3) := h
                  exact (hc1 x (List.mem_cons_self _ _)).2
                    (h' ▸ List.mem_append_right y (List.mem_cons_self _ _))
          | cons z1 t1' =>
              cases t2 with
              | nil =>
                  exfalso
                  have h' : x ++ '|' :: joinBar (z1 :: t1') = y := h
                  exact (hc2 y (List.mem_cons_self _ _)).2
                    (h' ▸ List.mem_append_right x (List.mem_cons_self _ _))
              | cons z2 t3 =>
                  have h' : x ++ '|' :: joinBar (z1 :: t1') =
                      y ++ '|' :: joinBar (z2 :: t3) := h
                  obtain ⟨hxy, hrest⟩ := append_sep_inj
                    (hc1 x (List.mem_cons_self _ _)).2
                    (hc2 y (List.mem_cons_self _ _)).2 h'
                  rw [hxy, ih (fun e he => hc1 e (List.mem_cons_of_mem _ he))
                    (fun e he => hc2 e (List.mem_cons_of_mem _ he)) hrest]

/-- On the separator-collision-free domain, equal canonical encodings
come only from equal entry sets. -/
theorem canonicalEncoding_inj {p1 p2 : List (List Char × Jvalue)}
    (hc1 : EncOk p1) (hc2 : EncOk p2)
    (h : canonicalEncoding p1 = canonicalEncoding p2) : p1.Perm p2 := by
  unfold canonicalEncoding at h
  have hs1 : ∀ e ∈ List.insertionSort keyLe p1, e ∈ p1 := fun e he =>
    (List.perm_insertionSort keyLe p1).mem_iff.mp he
  have hs2 : ∀ e ∈ List.insertionSort keyLe p2, e ∈ p2 := fun e he =>
    (List.perm_insertionSort keyLe p2).mem_iff.mp he
  have hparts1 : ∀ x ∈ (List.insertionSort keyLe p1).map encodeEntry,
      x ≠ [] ∧ '|' ∉ x := by
    intro x hx
    obtain ⟨e, he, rfl⟩ := List.mem_map.mp hx
    have hm := hc1 e (hs1 e he)
    exact ⟨encodeEntry_ne_nil e, bar_not_mem_encodeEntry hm.1.2 hm.2⟩
  have hparts2 : ∀ x ∈ (List.insertionSort keyLe p2).map encodeEntry,
      x ≠ [] ∧ '|' ∉ x := by
    intro x hx
    obtain ⟨e, he, rfl⟩ := List.mem_map.mp hx
    have hm := hc2 e (hs2 e he)
    exact ⟨encodeEntry_ne_nil e, bar_not_mem_encodeEntry hm.1.2 hm.2⟩
  have hmaps := joinBar_inj hparts1 hparts2 h
  have hsorts := map_encodeEntry_inj
    (fun e he => (hc1 e (hs1 e he)).1.1) (fun e he => (hc2 e (hs2 e he)).1.1) hmaps
  exact (List.perm_insertionSort keyLe p1).symm.trans
    (hsorts ▸ List.perm_insertionSort keyLe p2)

/-! ## Verification and signing helper lemmas -/

theorem hexEncode_ascii (bs : List Nat) : ∀ c ∈ hexEncode bs, c.toNat < 128 :=
  fun c hc => hexChars_ascii c (hexEncode_chars bs c hc)

/-- A header built from the prefix and the expected hex digest verifies. -/
theorem verify_correct_header (payload : List Nat) (secret : List Char) :
    VerifySignature payload
      ("sha256=".toList ++ hexEncode (hmacSha256 (utf8Encode secret) payload))
      secret = true := by
  unfold VerifySignature
  rw [if_pos (List.isPrefixOf_iff_prefix.mpr (List.prefix_append _ _))]
  show hmacEqual
    (utf8Encode (("sha256=".toList ++
      hexEncode (hmacSha256 (utf8Encode secret) payload)).drop 7))
    (utf8Encode (hexEncode (hmacSha256 (utf8Encode secret) payload))) = true
  rw [show (7 : Nat) = ("sha256=".toList).length from rfl, List.drop_left]
  simp [hmacEqual]

/-- Correctness: `VerifySignature` accepts exactly the well-formed header. -/
theorem verify_eq_true_iff (payload : List Nat) (signature secret : List Char) :
    VerifySignature payload signature secret = true ↔
      signature = "sha256=".toList ++
        hexEncode (hmacSha256 (utf8Encode secret) payload) := by
  constructor
  · intro h
    unfold VerifySignature at h
    by_cases hp : ("sha256=".toList).isPrefixOf signature = true
    · rw [if_pos hp] at h
      have h' : (utf8Encode (signature.drop 7) ==
          utf8Encode (hexEncode (hmacSha256 (utf8Encode secret) payload))) = true := h
      have heq := eq_of_beq h'
      have hrecv : signature.drop 7 =
          hexEncode (hmacSha256 (utf8Encode secret) payload) :=
        utf8Encode_ascii_inj _ _ (hexEncode_ascii _) heq
      obtain ⟨t, ht⟩ := List.isPrefixOf_iff_prefix.mp hp
      rw [← ht]
      congr 1
      have htdrop : t = signature.drop 7 := by
        rw [← ht, show (7 : Nat) = ("sha256=".toList).length from rfl,
          List.drop_left]
      rw [htdrop, hrecv]
    · rw [if_neg hp] at h
      exact absurd h (by simp)
  · intro h
    rw [h]
    exact verify_correct_header payload secret

/-- On non-degenerate inputs `signHex` is the hex HMAC keyed by the
trimmed secret. -/
theorem signHex_spec (body : List Nat) (secret : List Char)
    (hashF : List Nat → List Nat) (blockSize : Nat)
    (hb : body ≠ []) (hs : trimSpace secret ≠ []) :
    signHex body secret hashF blockSize =
      hexEncode (hmac hashF blockSize (utf8Encode (trimSpace secret)) body) := by
  show (if body.length = 0 ∨ trimSpace secret = [] then []
    else hexEncode (hmac hashF blockSize (utf8Encode (trimSpace secret)) body)) = _
  rw [if_neg (not_or.mpr ⟨fun h => hb (List.length_eq_zero.mp h), hs⟩)]

/-- On degenerate inputs `signHex` is the empty-string sentinel. -/
theorem signHex_sentinel (body : List Nat) (secret : List Char)
    (hashF : List Nat → List Nat) (blockSize : Nat)
    (h : body = [] ∨ trimSpace secret = []) :
    signHex body secret hashF blockSize = [] := by
  show (if body.length = 0 ∨ trimSpace secret = [] then []
    else hexEncode (hmac hashF blockSize (utf8Encode (trimSpace secret)) body)) = _
  rw [if_pos (h.imp (fun h1 => by rw [h1]; rfl) id)]

theorem signHex_length {body : List Nat} {secret : List Char}
    {hashF : List Nat → List Nat} {blockSize n : Nat}
    (hlen : ∀ m, (hashF m).length = n)
    (hne : signHex body secret hashF blockSize ≠ []) :
    (signHex body secret hashF blockSize).length = 2 * n := by
  by_cases h : body = [] ∨ trimSpace secret = []
  · exact absurd (signHex_sentinel _ _ _ _ h) hne
  · push_neg at h
    have hl : (hmac hashF blockSize (utf8Encode (trimSpace secret)) body).length = n :=
      hlen _
    rw [signHex_spec _ _ _ _ h.1 h.2, hexEncode_length, hl]

/-! ## The claims -/

/-- C1: `VerifySignature(body, header, secret)` returns true iff the
header is exactly `sha256=` followed by the lowercase hex HMAC-SHA256 of
the body keyed by the secret; any header without the prefix, and any
stripped value differing from the expected digest (any length), yields
the boolean `false` — the embedding is a total Boolean function, so no
exception or fault is possible. -/
theorem C1_verify_signature_iff (payload : List Nat) (signature secret : List Char) :
    (VerifySignature payload signature secret = true ↔
      signature = "sha256=".toList ++
        hexEncode (hmacSha256 (utf8Encode secret) payload)) ∧
    (¬ ("sha256=".toList).isPrefixOf signature = true →
      VerifySignature payload signature secret = false) := by
  refine ⟨verify_eq_true_iff payload signature secret, fun hp => ?_⟩
  unfold VerifySignature
  rw [if_neg hp]

/-- Witness for C1 at a concrete prefix-less header. -/
theorem C1_witness : VerifySignature [] "x".toList [] = false :=
  (C1_verify_signature_iff [] "x".toList []).2 (by decide)

/-- C2: the canonical encoding computed inside `GenerateIdempotencyKey`
equals the reference definition (keys sorted ascending, `key:json(value)`
joined by `|`) and is independent of the entry order of the caller's
map. -/
theorem C2_canonical_encoding (p1 p2 : List (List Char × Jvalue))
    (hnd : (p1.map Prod.fst).Nodup) (hperm : p1.Perm p2) :
    canonicalEncoding p1 = specCanonicalEncoding p1 ∧
    canonicalEncoding p1 = canonicalEncoding p2 :=
  ⟨canonicalEncoding_eq_spec hnd, canonicalEncoding_perm hperm hnd⟩

/-- Witness for C2 on a two-entry map inserted in both orders. -/
theorem C2_witness :
    canonicalEncoding [("b".toList, Jvalue.JInt 2), ("a".toList, Jvalue.JInt 1)] =
      canonicalEncoding [("a".toList, Jvalue.JInt 1), ("b".toList, Jvalue.JInt 2)] :=
  (C2_canonical_encoding
    [("b".toList, Jvalue.JInt 2), ("a".toList, Jvalue.JInt 1)]
    [("a".toList, Jvalue.JInt 1), ("b".toList, Jvalue.JInt 2)]
    (by decide) (by decide)).2

/-- C3: for every parameter set and call time `t ≥ 0` (epoch seconds,
embedded as `Nat`), the key is exactly
`reevit_<decimal (t / 300)>_<64-character lowercase hex SHA-256 digest
of the canonical encoding>`; the same parameter set in the same
300-second bucket gives the same key, and in different buckets different
keys. -/
theorem C3_idempotency_key_format (params : List (List Char × Jvalue)) (t1 t2 : Nat) :
    GenerateIdempotencyKey params t1 =
      "reevit_".toList ++ (toDecimal (t1 / 300) ++ '_' ::
        hexEncode (sha256 (utf8Encode (canonicalEncoding params)))) ∧
    (hexEncode (sha256 (utf8Encode (canonicalEncoding params)))).length = 64 ∧
    (∀ c ∈ hexEncode (sha256 (utf8Encode (canonicalEncoding params))),
      c ∈ hexChars) ∧
    (t1 / 300 = t2 / 300 →
      GenerateIdempotencyKey params t1 = GenerateIdempotencyKey params t2) ∧
    (t1 / 300 ≠ t2 / 300 →
      GenerateIdempotencyKey params t1 ≠ GenerateIdempotencyKey params t2) := by
  refine ⟨rfl, by rw [hexEncode_length, sha256_length], hexEncode_chars _, ?_, ?_⟩
  · intro h
    exact congrArg (fun b => "reevit_".toList ++ (toDecimal b ++ '_' ::
      hexEncode (sha256 (utf8Encode (canonicalEncoding params))))) h
  · intro h hkey
    have hkey' : "reevit_".toList ++ (toDecimal (t1 / 300) ++ '_' ::
        hexEncode (sha256 (utf8Encode (canonicalEncoding params)))) =
      "reevit_".toList ++ (toDecimal (t2 / 300) ++ '_' ::
        hexEncode (sha256 (utf8Encode (canonicalEncoding params)))) := hkey
    have h1 := List.append_cancel_left hkey'
    exact h (toDecimal_inj (append_sep_inj (underscore_not_mem_toDecimal _)
      (underscore_not_mem_toDecimal _) h1).1)

/-- Witness for C3: same bucket (300 and 599) gives the same key,
different buckets (300 and 600) different keys. -/
theorem C3_witness :
    GenerateIdempotencyKey [("a".toList, Jvalue.JInt 1)] 300 =
      GenerateIdempotencyKey [("a".toList, Jvalue.JInt 1)] 599 ∧
    GenerateIdempotencyKey [("a".toList, Jvalue.JInt 1)] 300 ≠
      GenerateIdempotencyKey [("a".toList, Jvalue.JInt 1)] 600 :=
  ⟨(C3_idempotency_key_format [("a".toList, Jvalue.JInt 1)] 300 599).2.2.2.1
      (by decide),
   (C3_idempotency_key_format [("a".toList, Jvalue.JInt 1)] 300 600).2.2.2.2
      (by decide)⟩

/-- C4 counterexample: the canonical encoding is NOT injective on all
parameter sets — the separator characters `:` and `|` inside a key make
`{a: 1, b: 2}` and the one-entry map with key `a:1|b` and value `2`
encode to the same bytes `a:1|b:2`, although the two sets differ. -/
theorem C4_counterexample :
    canonicalEncoding [("a".toList, Jvalue.JInt 1), ("b".toList, Jvalue.JInt 2)] =
      canonicalEncoding [("a:1|b".toList, Jvalue.JInt 2)] ∧
    ¬ ([("a".toList, Jvalue.JInt 1), ("b".toList, Jvalue.JInt 2)].Perm
        [("a:1|b".toList, Jvalue.JInt 2)]) := by
  refine ⟨by decide, fun h => ?_⟩
  have := h.length_eq
  simp at this

/-- C4 (amended): on parameter sets whose keys contain neither `:` nor
`|` and whose serialized values contain no `|`, the canonical encoding
is injective (distinct sets give distinct encodings), and within one
time bucket keys differ whenever the SHA-256 digests of the encodings
differ (distinct up to SHA-256 collision). -/
theorem C4_encoding_injective_amended (p1 p2 : List (List Char × Jvalue)) (t : Nat)
    (hc1 : EncOk p1) (hc2 : EncOk p2) (hne : ¬ p1.Perm p2) :
    canonicalEncoding p1 ≠ canonicalEncoding p2 ∧
    (sha256 (utf8Encode (canonicalEncoding p1)) ≠
        sha256 (utf8Encode (canonicalEncoding p2)) →
      GenerateIdempotencyKey p1 t ≠ GenerateIdempotencyKey p2 t) := by
  refine ⟨fun h => hne (canonicalEncoding_inj hc1 hc2 h), fun hsha hkey => ?_⟩
  have hkey' : "reevit_".toList ++ (toDecimal (t / 300) ++ '_' ::
      hexEncode (sha256 (utf8Encode (canonicalEncoding p1)))) =
    "reevit_".toList ++ (toDecimal (t / 300) ++ '_' ::
      hexEncode (sha256 (utf8Encode (canonicalEncoding p2)))) := hkey
  have h1 := List.append_cancel_left (List.append_cancel_left hkey')
  injection h1 with _ h2
  exact hsha (hexEncode_inj (sha256_lt _) (sha256_lt _) h2)

/-- Witness for C4 (amended) at two separator-free one-entry sets. -/
theorem C4_witness :
    canonicalEncoding [("a".toList, Jvalue.JInt 1)] ≠
      canonicalEncoding [("b".toList, Jvalue.JInt 1)] :=
  (C4_encoding_injective_amended [("a".toList, Jvalue.JInt 1)]
    [("b".toList, Jvalue.JInt 1)] 0 (by decide) (by decide) (by decide)).1

/-- C5 counterexample: signing trims the secret but `VerifySignature`
does not, so for a secret with surrounding whitespace the signed header
does NOT verify against the same (untrimmed) secret, although the body
is non-empty and the trimmed secret is non-empty. -/
theorem C5_counterexample :
    ([120] : List Nat) ≠ [] ∧ trimSpace " s".toList ≠ [] ∧
      VerifySignature [120]
        ("sha256=".toList ++ SignPolar [120] " s".toList) " s".toList = false := by
  refine ⟨by decide, by decide, by decide⟩

/-- C5 (amended): for a non-empty body and a non-empty secret WITHOUT
surrounding whitespace (so that trimming is the identity on it), the
header `sha256=` ++ `SignPolar`/`SignHubtel` output verifies against the
same body and secret. -/
theorem C5_sign_verify_roundtrip_amended (body : List Nat) (secret : List Char)
    (hb : body ≠ []) (ht : trimSpace secret = secret) (hs : secret ≠ []) :
    VerifySignature body ("sha256=".toList ++ SignPolar body secret) secret = true ∧
    VerifySignature body ("sha256=".toList ++ SignHubtel body secret) secret = true := by
  have hs' : trimSpace secret ≠ [] := by rw [ht]; exact hs
  constructor
  · rw [show SignPolar body secret = signHex body secret sha256 64 from rfl,
      signHex_spec body secret sha256 64 hb hs', ht]
    exact verify_correct_header body secret
  · rw [show SignHubtel body secret = signHex body secret sha256 64 from rfl,
      signHex_spec body secret sha256 64 hb hs', ht]
    exact verify_correct_header body secret

/-- Witness for C5 (amended) at body `[120]`, secret `"s"`. -/
theorem C5_witness :
    VerifySignature [120] ("sha256=".toList ++ SignPolar [120] "s".toList)
      "s".toList = true :=
  (C5_sign_verify_roundtrip_amended [120] "s".toList (by decide) (by decide)
    (by decide)).1

/-- C6: an empty body, or a secret that is empty after trimming
surrounding whitespace, makes every signing scheme return the
empty-string sentinel without computing a MAC. -/
theorem C6_sign_empty_sentinel (body : List Nat) (secret : List Char)
    (h : body = [] ∨ trimSpace secret = []) :
    SignPaystack body secret = [] ∧ SignHubtel body secret = [] ∧
      SignPolar body secret = [] :=
  ⟨signHex_sentinel _ _ _ _ h, signHex_sentinel _ _ _ _ h,
   signHex_sentinel _ _ _ _ h⟩

/-- Witness for C6: empty body with a real secret, and a whitespace-only
secret with a real body. -/
theorem C6_witness :
    SignPaystack [] "secret".toList = [] ∧ SignPolar [120] "  ".toList = [] :=
  ⟨(C6_sign_empty_sentinel [] "secret".toList (Or.inl rfl)).1,
   (C6_sign_empty_sentinel [120] "  ".toList (Or.inr (by decide))).2.2⟩

/-- C7 counterexample: `SignPaystack` (HMAC SHA-512) returns 128 hex
characters, not 64 — the claim's "every scheme in the registry,
including the SHA-512 scheme" is false on the code. -/
theorem C7_counterexample :
    SignPaystack [120] "secret".toList ≠ [] ∧
      (SignPaystack [120] "secret".toList).length ≠ 64 := by
  refine ⟨by decide, by decide⟩

/-- C7 (amended): every non-empty signature of the SHA-256 schemes
(`SignHubtel`, `SignPolar`) is exactly 64 characters and of the SHA-512
scheme (`SignPaystack`) exactly 128; in all cases a non-empty signature
is distinguishable from the empty-string sentinel by length. -/
theorem C7_sign_length_amended (body : List Nat) (secret : List Char) :
    (SignHubtel body secret ≠ [] → (SignHubtel body secret).length = 64) ∧
    (SignPolar body secret ≠ [] → (SignPolar body secret).length = 64) ∧
    (SignPaystack body secret ≠ [] → (SignPaystack body secret).length = 128) := by
  refine ⟨fun hne => ?_, fun hne => ?_, fun hne => ?_⟩
  · exact (signHex_length sha256_length hne).trans (by norm_num)
  · exact (signHex_length sha256_length hne).trans (by norm_num)
  · exact (signHex_length sha512_length hne).trans (by norm_num)

/-- Witness for C7 (amended) at the repository's own test vector. -/
theorem C7_witness :
    (SignHubtel (utf8Encode "\x7b\"foo\":\"bar\"\x7d".toList)
      "secret".toList).length = 64 :=
  (C7_sign_length_amended (utf8Encode "\x7b\"foo\":\"bar\"\x7d".toList)
    "secret".toList).1 (by decide)

/-- C8: the literal known vectors of the repository's test suite:
`SignPaystack`/`SignHubtel`/`SignPolar` of body `{"foo":"bar"}` with
secret `secret`, and `FlutterwaveHash` of ` secret-hash `. -/
theorem C8_known_vectors :
    SignPaystack (utf8Encode "\x7b\"foo\":\"bar\"\x7d".toList) "secret".toList =
      ("f519630fca75a1fc5d62fd2547858feccd17a564fcc45c8e209b66cf1d7711b7" ++
       "ceec3e299961e6ae4b5c5f130dcacbe0fdb552bd2f9e9d9ecc06cc783681faa0").toList ∧
    SignHubtel (utf8Encode "\x7b\"foo\":\"bar\"\x7d".toList) "secret".toList =
      "3f3ab3986b656abb17af3eb1443ed6c08ef8fff9fea83915909d1b421aec89be".toList ∧
    SignPolar (utf8Encode "\x7b\"foo\":\"bar\"\x7d".toList) "secret".toList =
      "3f3ab3986b656abb17af3eb1443ed6c08ef8fff9fea83915909d1b421aec89be".toList ∧
    FlutterwaveHash " secret-hash ".toList = "secret-hash".toList := by
  refine ⟨by decide, by decide, by decide, by decide⟩

/-- C9: the metadata map contains `org_id` / `connection_id` /
`payment_id` exactly when the corresponding input is non-blank after
trimming (storing the trimmed value), contains no other keys, and the
two concrete cases of the test suite hold. -/
theorem C9_build_metadata (orgID connectionID paymentID : List Char) :
    (metaLookup (BuildMetadata orgID connectionID paymentID) MetadataOrgID =
      if trimSpace orgID = [] then none else some (trimSpace orgID)) ∧
    (metaLookup (BuildMetadata orgID connectionID paymentID) MetadataConnectionID =
      if trimSpace connectionID = [] then none else some (trimSpace connectionID)) ∧
    (metaLookup (BuildMetadata orgID connectionID paymentID) MetadataPaymentID =
      if trimSpace paymentID = [] then none else some (trimSpace paymentID)) ∧
    (∀ k, k ≠ MetadataOrgID → k ≠ MetadataConnectionID → k ≠ MetadataPaymentID →
      metaLookup (BuildMetadata orgID connectionID paymentID) k = none) ∧
    BuildMetadata "org_1".toList "conn_1".toList "pay_1".toList =
      [(MetadataOrgID, "org_1".toList), (MetadataConnectionID, "conn_1".toList),
       (MetadataPaymentID, "pay_1".toList)] ∧
    BuildMetadata [] [] [] = [] := by
  refine ⟨?_, ?_, ?_, ?_, by decide, by decide⟩
  · by_cases h1 : trimSpace orgID = [] <;> by_cases h2 : trimSpace connectionID = [] <;>
      by_cases h3 : trimSpace paymentID = [] <;>
      simp +decide [BuildMetadata, metaLookup, h1, h2, h3,
        MetadataOrgID, MetadataConnectionID, MetadataPaymentID]
  · by_cases h1 : trimSpace orgID = [] <;> by_cases h2 : trimSpace connectionID = [] <;>
      by_cases h3 : trimSpace paymentID = [] <;>
      simp +decide [BuildMetadata, metaLookup, h1, h2, h3,
        MetadataOrgID, MetadataConnectionID, MetadataPaymentID]
  · by_cases h1 : trimSpace orgID = [] <;> by_cases h2 : trimSpace connectionID = [] <;>
      by_cases h3 : trimSpace paymentID = [] <;>
      simp +decide [BuildMetadata, metaLookup, h1, h2, h3,
        MetadataOrgID, MetadataConnectionID, MetadataPaymentID]
  · intro k hk1 hk2 hk3
    by_cases h1 : trimSpace orgID = [] <;> by_cases h2 : trimSpace connectionID = [] <;>
      by_cases h3 : trimSpace paymentID = [] <;>
      simp [BuildMetadata, metaLookup, h1, h2, h3,
        Ne.symm hk1, Ne.symm hk2, Ne.symm hk3]

/-- Witness for C9 at the test inputs and an unrelated key. -/
theorem C9_witness :
    metaLookup (BuildMetadata "org_1".toList "conn_1".toList "pay_1".toList)
      "other".toList = none :=
  (C9_build_metadata "org_1".toList "conn_1".toList "pay_1".toList).2.2.2.1
    "other".toList (by decide) (by decide) (by decide)

/-- C10: `VerifySignature` applies no emptiness check and no whitespace
trimming: for every body (including `[]`) and every secret (including
`[]` or whitespace-only), the header built from the untrimmed secret's
HMAC verifies — inputs on which signing would return the sentinel are
still accepted by verification. -/
theorem C10_verify_no_trim_no_empty_check (payload : List Nat) (secret : List Char) :
    VerifySignature payload
      ("sha256=".toList ++ hexEncode (hmacSha256 (utf8Encode secret) payload))
      secret = true :=
  verify_correct_header payload secret

end Reevit
